import Mathlib

/-!
Verification development for the Kubernetes image lister
(`kube-images.py`).  The program's string-normalization functions,
per-context aggregation, pagination loop and multi-context orchestrator
are shallowly embedded over `List Char`; Python `Optional[str]` values
become `Option (List Char)` (with the convention that a missing string
field is the empty list where the source coalesces `None` to `""`).
-/

namespace KubeImages

/-- Characters removed by Python `str.strip()` on ASCII input:
space, tab, newline, carriage return, vertical tab, form feed. -/
def isPySpace (c : Char) : Bool :=
  c == ' ' || c == '\t' || c == '\n' || c == '\r' || c == Char.ofNat 11 || c == Char.ofNat 12

/-- Python `s.strip()`: drop leading and trailing whitespace. -/
def pyStrip (s : List Char) : List Char :=
  ((s.dropWhile isPySpace).reverse.dropWhile isPySpace).reverse

/-- Character class `[a-zA-Z0-9+.\-]` from `_SCHEME_RE`. -/
def isSchemeTailChar (c : Char) : Bool :=
  c.isAlpha || c.isDigit || c == '+' || c == '.' || c == '-'

/-- `ImageReferenceParser.strip_scheme`: remove one leading occurrence
of a letter, then letters, digits, plus, dot or dash, then `://` (the
regex is anchored, so at most one substitution happens).  Because `:`
and `/` are not in the scheme character class, the greedy run is
exactly `dropWhile`. -/
def stripScheme (s : List Char) : List Char :=
  match s with
  | [] => []
  | c :: rest =>
    if c.isAlpha then
      match rest.dropWhile isSchemeTailChar with
      | ':' :: '/' :: '/' :: tail => tail
      | _ => c :: rest
    else c :: rest

/-- Character class `[A-Za-z0-9]`. -/
def isAlnumChar (c : Char) : Bool :=
  c.isAlpha || c.isDigit

/-- `ImageReferenceParser.is_valid_image_ref`: trim, strip the scheme,
reject the empty string and strings starting with `:` or `@`, and
require at least one alphanumeric character before the first `:`/`@`. -/
def isValidImageRef (image : List Char) : Bool :=
  match stripScheme (pyStrip image) with
  | [] => false
  | c :: rest =>
    if c == ':' || c == '@' then false
    else ((c :: rest).takeWhile (fun d => !(d == '@' || d == ':'))).any isAlnumChar

/-- Character class `[A-Za-z0-9_+.\-]` from `_DIGEST_RE`'s algorithm part. -/
def isAlgoChar (c : Char) : Bool :=
  c.isAlpha || c.isDigit || c == '_' || c == '+' || c == '.' || c == '-'

/-- Character class `[A-Fa-f0-9]`. -/
def isHexChar (c : Char) : Bool :=
  c.isDigit || ('a' ≤ c && c ≤ 'f') || ('A' ≤ c && c ≤ 'F')

/-- Match of `_DIGEST_RE` = `([A-Za-z0-9_+.\-]+):([A-Fa-f0-9]{32,128})`
anchored at the start of `s`: a nonempty greedy run of algorithm
characters, a colon, then at least 32 hex characters (greedily capped
at 128).  Since `:` is not an algorithm character the greedy run is
`takeWhile`, and no backtracking alternative exists. -/
def digestHere (s : List Char) : Option (List Char) :=
  match s.takeWhile isAlgoChar, s.dropWhile isAlgoChar with
  | a :: algoRest, x :: t =>
    if x = ':' then
      let hexRun := t.takeWhile isHexChar
      if 32 ≤ hexRun.length then some ((a :: algoRest) ++ ':' :: hexRun.take 128) else none
    else none
  | _, _ => none

/-- `re.search` with `_DIGEST_RE`: the match at the leftmost position
where one starts. -/
def digestSearch : List Char → Option (List Char)
  | [] => none
  | c :: rest =>
    match digestHere (c :: rest) with
    | some d => some d
    | none => digestSearch rest

/-- Match of `_AT_DIGEST_RE` anchored at the start of `s`: a `@`
followed by a `_DIGEST_RE` match. -/
def atDigestHere (s : List Char) : Bool :=
  match s with
  | c :: rest => c == '@' && (digestHere rest).isSome
  | [] => false

/-- `_AT_DIGEST_RE.search(s)` is not `None`: some position starts an
`@<algo>:<hex>` match. -/
def hasAtDigest : List Char → Bool
  | [] => false
  | c :: rest => atDigestHere (c :: rest) || hasAtDigest rest

/-- `ImageReferenceParser.extract_digest`: first candidate (skipping
falsy i.e. empty ones) containing a `_DIGEST_RE` match wins. -/
def extractDigest : List (List Char) → Option (List Char)
  | [] => none
  | c :: rest =>
    if c.isEmpty then extractDigest rest
    else
      match digestSearch c with
      | some d => some d
      | none => extractDigest rest

/-- `ImageReferenceParser.short_name`: strip the scheme, keep the part
after the last `/`, drop everything from the first `@`, then from the
first `:`; empty results become `"unknown"`. -/
def shortName (imageRef : List Char) : List Char :=
  if imageRef.isEmpty then "unknown".toList
  else
    let noScheme := stripScheme imageRef
    let tail1 := (noScheme.reverse.takeWhile (fun c => !(c == '/'))).reverse
    let tail2 := tail1.takeWhile (fun c => !(c == '@'))
    let tail3 := if tail2.contains ':' then tail2.takeWhile (fun c => !(c == ':')) else tail2
    if tail3.isEmpty then "unknown".toList else tail3

/-- `ImageReferenceParser.compose_reference`: strip the scheme; keep an
already digest-qualified reference unchanged; otherwise append
`@<digest>` when the digest is truthy (non-`None` and nonempty). -/
def composeReference (image : List Char) (digest : Option (List Char)) : List Char :=
  let normalized := stripScheme image
  if hasAtDigest normalized then normalized
  else
    match digest with
    | some d => if d.isEmpty then normalized else normalized ++ '@' :: d
    | none => normalized

/-- Python `str.lower()` on ASCII input. -/
def pyLower (s : List Char) : List Char :=
  s.map Char.toLower

/-- `ImageReferenceParser.uniqueness_key`: `(digest or ref).lower()`;
note a falsy (empty) digest falls through to the reference. -/
def uniquenessKey (ref : List Char) (digest : Option (List Char)) : List Char :=
  match digest with
  | some d => if d.isEmpty then pyLower ref else pyLower d
  | none => pyLower ref

/-- The `ContainerImage` dataclass. -/
structure ContainerImage where
  ref : List Char
  name : List Char
  digest : Option (List Char)
  deriving DecidableEq

/-- One entry of a `containerStatuses`-like list; absent fields are the
empty string (the source coalesces with `or ""`). -/
structure ContainerStatus where
  image : List Char
  imageID : List Char
  deriving DecidableEq

/-- Loop body of `ImageReferenceParser.from_statuses` for one status
entry: `none` when the entry is skipped as invalid. -/
def statusImage (st : ContainerStatus) : Option ContainerImage :=
  let image := stripScheme st.image
  let imageID := stripScheme st.imageID
  if isValidImageRef image then
    let digest := extractDigest [imageID, image]
    let ref := composeReference image digest
    let name := shortName (if ref.isEmpty then image else ref)
    some { ref := ref, name := name, digest := digest }
  else none

/-- `ImageReferenceParser.from_statuses`; a non-list input yields `[]`. -/
def fromStatuses : Option (List ContainerStatus) → List ContainerImage
  | none => []
  | some l => l.filterMap statusImage

/-- One declared container from `spec.containers`. -/
structure ContainerSpec where
  image : List Char
  deriving DecidableEq

/-- Loop body of `ImageReferenceParser.from_container_specs`. -/
def specImage (c : ContainerSpec) : Option ContainerImage :=
  let image := stripScheme c.image
  if isValidImageRef image then
    let digest := extractDigest [image]
    let ref := composeReference image digest
    let name := shortName (if ref.isEmpty then image else ref)
    some { ref := ref, name := name, digest := digest }
  else none

/-- `ImageReferenceParser.from_container_specs`. -/
def fromContainerSpecs : Option (List ContainerSpec) → List ContainerImage
  | none => []
  | some l => l.filterMap specImage

/-- A pod record as consumed by `scan_single_context`: the
`metadata.namespace` string, the three status lists and the declared
`spec.containers`. -/
structure Pod where
  nsName : Option (List Char)
  containerStatuses : Option (List ContainerStatus)
  initContainerStatuses : Option (List ContainerStatus)
  ephemeralContainerStatuses : Option (List ContainerStatus)
  specContainers : Option (List ContainerSpec)
  deriving DecidableEq

/-- `(pod.get("metadata", {}) or {}).get("namespace") or "default"`. -/
def podNamespace (p : Pod) : List Char :=
  match p.nsName with
  | none => "default".toList
  | some s => if s.isEmpty then "default".toList else s

/-- The status-derived images of one pod, over the three categories of
`CONTAINER_STATUS_KEYS` in their fixed order. -/
def statusImagesOf (p : Pod) : List ContainerImage :=
  fromStatuses p.containerStatuses
    ++ fromStatuses p.initContainerStatuses
    ++ fromStatuses p.ephemeralContainerStatuses

/-- The images collected for one pod in `scan_single_context`: status
images if any, otherwise the all-or-nothing fallback to the spec
containers. -/
def collectPod (p : Pod) : List ContainerImage :=
  let collected := statusImagesOf p
  if collected.isEmpty then fromContainerSpecs p.specContainers else collected

/-- The per-namespace uniqueness key of an image. -/
def ukeyOf (img : ContainerImage) : List Char :=
  uniquenessKey img.ref img.digest

/-- Lookup in an insertion-ordered association list (a Python dict). -/
def lookupAssoc {α : Type} (m : List (List Char × α)) (k : List Char) : Option α :=
  (m.find? (fun p => p.1 == k)).map (fun p => p.2)

/-- Python dict assignment `m[k] = v`: replace in place, else append. -/
def upsertAssoc {α : Type} : List (List Char × α) → List Char → α → List (List Char × α)
  | [], k, v => [(k, v)]
  | (k', v') :: rest, k, v =>
    if k' == k then (k', v) :: rest else (k', v') :: upsertAssoc rest k v

/-- One namespace bucket: uniqueness key to first image seen. -/
abbrev Bucket := List (List Char × ContainerImage)

/-- `ns_bucket.setdefault(ukey, image)`: first one wins. -/
def bucketAdd (b : Bucket) (img : ContainerImage) : Bucket :=
  if (lookupAssoc b (ukeyOf img)).isSome then b else b ++ [(ukeyOf img, img)]

/-- Fold a pod's collected images into a bucket in order. -/
def bucketAddAll (b : Bucket) (imgs : List ContainerImage) : Bucket :=
  imgs.foldl bucketAdd b

/-- `images_by_namespace.setdefault(namespace, {})` followed by the
per-image inserts: update the namespace's bucket in place, creating it
at the end of the map if absent. -/
def setBucket : List (List Char × Bucket) → List Char → List ContainerImage → List (List Char × Bucket)
  | [], ns, imgs => [(ns, bucketAddAll [] imgs)]
  | (n, b) :: rest, ns, imgs =>
    if n == ns then (n, bucketAddAll b imgs) :: rest
    else (n, b) :: setBucket rest ns imgs

/-- The pod loop of `scan_single_context`. -/
def buildNsMap (pods : List Pod) : List (List Char × Bucket) :=
  pods.foldl (fun m p => setBucket m (podNamespace p) (collectPod p)) []

/-- The sort comparator `key=lambda x: (x.name, x.ref)`: Python tuple
comparison, strings compared lexicographically by code point (the
`List Char` linear order compares `Char` by code point). -/
def imageLe (a b : ContainerImage) : Bool :=
  decide (a.name < b.name ∨ (a.name = b.name ∧ a.ref ≤ b.ref))

/-- Stable insertion of `x` into a `le`-sorted list: `x` goes after all
existing elements `y` with `le y x`, so comparator-ties keep their
original relative order. -/
def insertLe {α : Type} (le : α → α → Bool) (x : α) : List α → List α
  | [] => [x]
  | y :: ys => if le y x then y :: insertLe le x ys else x :: y :: ys

/-- Python `sorted(values, key=...)`, modelled as a stable insertion
sort.  Python's sort is stable, and a stable sort's output is uniquely
determined by the comparator and the input order, so any stable sorting
algorithm with the same comparator is a faithful model. -/
def sortByLe {α : Type} (le : α → α → Bool) (l : List α) : List α :=
  l.foldl (fun acc x => insertLe le x acc) []

/-- The pure core of `KubernetesImageScanner.scan_single_context`,
applied to the retrieved pod records: per-namespace buckets, each
emitted as its images sorted by `(name, ref)`. -/
def scanSingleContext (pods : List Pod) : List (List Char × List ContainerImage) :=
  (buildNsMap pods).map (fun p => (p.1, sortByLe imageLe (p.2.map (fun q => q.2))))

/-- The stream of images extracted for one namespace during a single
context scan, in processing order: pods in input order restricted to the
namespace, each contributing its collected images in category order. -/
def streamFor (ns : List Char) (pods : List Pod) : List ContainerImage :=
  ((pods.filter (fun p => podNamespace p == ns)).map collectPod).flatten

/-- One response of the remote listing source: sanitized items plus the
optional `metadata.continue` token. -/
structure PodPage where
  items : List Pod
  continueToken : Option (List Char)
  deriving DecidableEq

/-- The pagination loop of
`KubernetesImageScanner._list_pods_across_all_namespaces`, with the
remote source modelled as a function from the supplied cursor to the
response and an explicit step budget: `none` means the budget was
exhausted with the loop still running.  The loop breaks exactly when
the returned token is falsy (absent or empty). -/
def listPodsFuel (src : Option (List Char) → PodPage) :
    Nat → Option (List Char) → List Pod → Option (List Pod)
  | 0, _, _ => none
  | Nat.succ fuel, cursor, acc =>
    let page := src cursor
    let acc2 := acc ++ page.items
    match page.continueToken with
    | none => some acc2
    | some t => if t.isEmpty then some acc2 else listPodsFuel src fuel (some t) acc2

/-- The source `src`, asked first with `cursor` and then with each
previously returned continuation token, serves exactly the page
sequence `ps`, whose last page (and only its last page) carries a falsy
token. -/
def feeds (src : Option (List Char) → PodPage) :
    Option (List Char) → List PodPage → Bool
  | _, [] => false
  | cursor, [p] =>
    decide (src cursor = p) &&
      (match p.continueToken with
       | none => true
       | some t => t.isEmpty)
  | cursor, p :: q :: rest =>
    decide (src cursor = p) &&
      (match p.continueToken with
       | none => false
       | some t => !t.isEmpty && feeds src (some t) (q :: rest))

/-- What `scan_single_context` returns for one context. -/
abbrev ScanRes := List (List Char × List ContainerImage)

/-- Outcome of one context's scan as observed at the collection point of
`scan_multiple_contexts`: a result, an `ApiException`, or any other
exception (with its class name). -/
inductive ScanOutcome where
  | ok (res : ScanRes)
  | apiErr (msg : List Char)
  | unexpected (cls : List Char) (msg : List Char)
  deriving DecidableEq

/-- The error message recorded for a failed context, with the prefixes
built in the two `except` arms. -/
def outcomeErrText : ScanOutcome → Option (List Char)
  | .ok _ => none
  | .apiErr m => some ("Kubernetes API error: ".toList ++ m)
  | .unexpected c m => some ("Unexpected error: ".toList ++ c ++ ": ".toList ++ m)

/-- The successful result of an outcome, if any. -/
def outcomeRes : ScanOutcome → Option ScanRes
  | .ok r => some r
  | .apiErr _ => none
  | .unexpected _ _ => none

/-- The future-collection loop of `scan_multiple_contexts`: successes
into `results`, failures into `errors` (both Python dicts, here
insertion-ordered association lists), one completed future per
submitted name. -/
def scanPairAux (scan : List Char → ScanOutcome) (names : List (List Char))
    (acc : List (List Char × ScanRes) × List (List Char × List Char)) :
    List (List Char × ScanRes) × List (List Char × List Char) :=
  names.foldl
    (fun a n =>
      match scan n with
      | .ok r => (upsertAssoc a.1 n r, a.2)
      | .apiErr m => (a.1, upsertAssoc a.2 n ("Kubernetes API error: ".toList ++ m))
      | .unexpected c m =>
        (a.1, upsertAssoc a.2 n ("Unexpected error: ".toList ++ c ++ ": ".toList ++ m)))
    acc

/-- The `results` and `errors` dicts of `scan_multiple_contexts` right
before the merge at the end of the function. -/
def scanPairOf (scan : List Char → ScanOutcome) (names : List (List Char)) :
    List (List Char × ScanRes) × List (List Char × List Char) :=
  scanPairAux scan names ([], [])

/-- A value of the heterogeneous dict returned by
`scan_multiple_contexts`: a per-namespace scan result, or (under the
reserved key only) the error map. -/
inductive MergedVal where
  | res (r : ScanRes)
  | errs (e : List (List Char × List Char))
  deriving DecidableEq

/-- The reserved key `"__errors__"`. -/
def errorsKey : List Char :=
  "__errors__".toList

/-- `KubernetesImageScanner.scan_multiple_contexts` with the per-context
scan outcome abstracted as `scan`: collect successes and failures, then
store the error dict under `"__errors__"` when it is nonempty. -/
def scanMultipleContexts (scan : List Char → ScanOutcome) (names : List (List Char)) :
    List (List Char × MergedVal) :=
  let pair := scanPairOf scan names
  let merged := pair.1.map (fun p => (p.1, MergedVal.res p.2))
  if pair.2.isEmpty then merged else upsertAssoc merged errorsKey (MergedVal.errs pair.2)

/-- Python `dict.pop(k)`: the map without the key. -/
def eraseKey {α : Type} (m : List (List Char × α)) (k : List Char) : List (List Char × α) :=
  m.filter (fun p => !(p.1 == k))

/-- The splitting step of `scan_images`: pop `"__errors__"` from the raw
mapping when present and keep the rest; the second component is exactly
the value `scan_images` binds as its error map (the `isinstance` filter
keeps every remaining value, all of which are dicts). -/
def scanImages (scan : List Char → ScanOutcome) (names : List (List Char)) :
    List (List Char × MergedVal) × Option MergedVal :=
  let raw := scanMultipleContexts scan names
  match lookupAssoc raw errorsKey with
  | some v => (eraseKey raw errorsKey, some v)
  | none => (raw, none)

/-- The invalidity condition as § 4.1 of the specification words it:
after trimming whitespace and stripping a leading transport scheme, the
string is empty, starts with `:` or `@`, or has no alphanumeric
character before the first `:` or `@`.  (The specification's "after
scheme-stripping and trimming whitespace" is read in the order the
program applies the two steps: trim, then strip.) -/
def invalidRefPerSpec (s : List Char) : Bool :=
  let t := stripScheme (pyStrip s)
  t.isEmpty ||
    (match t with
     | [] => true
     | c :: _ => c == ':' || c == '@') ||
    !((t.takeWhile (fun d => !(d == '@' || d == ':'))).any isAlnumChar)

/-- The invariant claimed for `ContainerImage`: a set digest appears as
the `@<digest>` suffix of the reference. -/
def digestSuffixOk (img : ContainerImage) : Bool :=
  match img.digest with
  | some d => ('@' :: d).isSuffixOf img.ref
  | none => true

/-- A remote source whose every response carries the same non-empty
continuation token, bit for bit. -/
def alwaysToken : Option (List Char) → PodPage :=
  fun _ => { items := [], continueToken := some "T".toList }

/-! Concrete inputs used by counterexamples and witnesses. -/

/-- 64 `a` characters. -/
def aHex : List Char := List.replicate 64 'a'

/-- 64 `b` characters. -/
def bHex : List Char := List.replicate 64 'b'

/-- 64 `c` characters. -/
def cHex : List Char := List.replicate 64 'c'

/-- A well-formed sha256 digest string. -/
def sha256a : List Char := "sha256:".toList ++ aHex

/-- A well-formed sha512 digest string distinct from `sha256a`. -/
def sha512b : List Char := "sha512:".toList ++ bHex

/-- Another well-formed sha256 digest string. -/
def sha256c : List Char := "sha256:".toList ++ cHex

/-- Status whose image embeds one digest while its imageID carries a
different one. -/
def mismatchStatus : ContainerStatus :=
  { image := "repo@".toList ++ sha256a, imageID := sha512b }

/-- Ordinary status: plain tag-less image, digest in the imageID. -/
def okStatus : ContainerStatus :=
  { image := "nginx".toList, imageID := sha256c }

/-- The image `from_statuses` produces for `okStatus`. -/
def okStatusImage : ContainerImage :=
  { ref := "nginx".toList ++ '@' :: sha256c, name := "nginx".toList, digest := some sha256c }

/-- An image string carrying a nested transport scheme; it passes
`is_valid_image_ref`. -/
def nestedSchemeImage : List Char := "docker://http://repo".toList

/-- A pod with one ordinary running container and a declared spec
container that names a different image. -/
def runningPod : Pod :=
  { nsName := some "ns1".toList
    containerStatuses := some [okStatus]
    initContainerStatuses := none
    ephemeralContainerStatuses := none
    specContainers := some [{ image := "redis:7".toList }] }

/-- A pending pod: empty status arrays, one declared spec container. -/
def pendingPod : Pod :=
  { nsName := some "ns1".toList
    containerStatuses := some []
    initContainerStatuses := some []
    ephemeralContainerStatuses := some []
    specContainers := some [{ image := "nginx:1.25".toList }] }

/-- First of two pods whose containers share a digest under different
tags. -/
def tagV1Pod : Pod :=
  { nsName := some "ns1".toList
    containerStatuses := some [{ image := "repo/app:v1".toList,
                                 imageID := "docker-pullable://repo/app@".toList ++ sha256c }]
    initContainerStatuses := none
    ephemeralContainerStatuses := none
    specContainers := none }

/-- Second pod: same digest, tag `v2`. -/
def tagV2Pod : Pod :=
  { nsName := some "ns1".toList
    containerStatuses := some [{ image := "repo/app:v2".toList,
                                 imageID := "docker-pullable://repo/app@".toList ++ sha256c }]
    initContainerStatuses := none
    ephemeralContainerStatuses := none
    specContainers := none }

/-- The single deduplicated image kept for `[tagV1Pod, tagV2Pod]`:
the first-seen `v1` reference, digest-qualified. -/
def tagKeptImage : ContainerImage :=
  { ref := "repo/app:v1@".toList ++ sha256c, name := "app".toList, digest := some sha256c }

/-- A pod with no content, used as a page item. -/
def blankPod : Pod :=
  { nsName := none, containerStatuses := none, initContainerStatuses := none,
    ephemeralContainerStatuses := none, specContainers := none }

/-- Page 1 of the three-page example: 2 items, token `T1`. -/
def examplePage1 : PodPage := { items := [blankPod, blankPod], continueToken := some "T1".toList }

/-- Page 2: 2 items, token `T2`. -/
def examplePage2 : PodPage := { items := [blankPod, blankPod], continueToken := some "T2".toList }

/-- Page 3: 1 item, empty token. -/
def examplePage3 : PodPage := { items := [blankPod], continueToken := some [] }

/-- A source serving the three example pages along the cursor chain
`none`, `T1`, `T2`. -/
def exampleSource : Option (List Char) → PodPage :=
  fun c =>
    match c with
    | none => examplePage1
    | some t =>
      if t = "T1".toList then examplePage2
      else if t = "T2".toList then examplePage3
      else examplePage1

/-- Per-context outcomes where only target `"b"` fails, with an
authorization error. -/
def bFailsScan : List Char → ScanOutcome :=
  fun n => if n = "b".toList then .apiErr "(401) Unauthorized".toList else .ok []

/-- Per-context outcomes where every target succeeds. -/
def allOkScan : List Char → ScanOutcome :=
  fun _ => .ok []

/-- Outcomes where the target literally named `"__errors__"` succeeds
and target `"b"` fails. -/
def collisionScan : List Char → ScanOutcome :=
  fun n => if n = errorsKey then .ok [("ns1".toList, [])] else .apiErr "denied".toList

/-! Theorems. -/

/-- C9: when the recognized status categories yield at least one image,
the declared spec containers are never consulted (the result equals the
status images whatever the specs are); only when status extraction is
empty are spec containers used; and the pending pod with one
`nginx:1.25` spec container yields exactly one `nginx` image without
digest. -/
theorem c9_status_fallback :
    (∀ p : Pod, statusImagesOf p ≠ [] →
      collectPod p = statusImagesOf p ∧
        ∀ alt : Option (List ContainerSpec),
          collectPod { p with specContainers := alt } = statusImagesOf p) ∧
    (∀ p : Pod, statusImagesOf p = [] →
      collectPod p = fromContainerSpecs p.specContainers) ∧
    collectPod pendingPod =
      [{ ref := "nginx:1.25".toList, name := "nginx".toList, digest := none }] := by
  refine ⟨?_, ?_, by decide⟩
  · intro p h
    have hne : (statusImagesOf p).isEmpty = false := by
      cases hs : statusImagesOf p with
      | nil => exact absurd hs h
      | cons a l => rfl
    constructor
    · simp [collectPod, hne]
    · intro alt
      have halt : statusImagesOf { p with specContainers := alt } = statusImagesOf p := rfl
      simp [collectPod, halt, hne]
  · intro p h
    simp [collectPod, h]

/-- Witness for C9: a running pod keeps its status images even though a
spec container names a different image, and the pending pod takes the
fallback path. -/
theorem c9_status_fallback_witness :
    collectPod runningPod = statusImagesOf runningPod ∧
    collectPod pendingPod = fromContainerSpecs pendingPod.specContainers :=
  ⟨(c9_status_fallback.1 runningPod (by decide)).1,
   c9_status_fallback.2.1 pendingPod (by decide)⟩

/-- C8 counterexample: with an empty-string digest — which is present,
as the claim quantifies over all optional digests — the code returns
the lower-cased reference, not the lower-cased digest. -/
theorem c8_uniqueness_key_cex :
    uniquenessKey "A".toList (some []) = "a".toList ∧
    pyLower ([] : List Char) = [] ∧
    "a".toList ≠ ([] : List Char) := by decide

/-- C8 amended: identityKey returns the digest if present and
non-empty, else the reference, lower-cased; it is case-insensitive on
references, and two images with the same non-empty digest receive equal
keys regardless of their references. -/
theorem c8_uniqueness_key_amended :
    (∀ ref : List Char, uniquenessKey ref none = pyLower ref) ∧
    (∀ ref : List Char, uniquenessKey ref (some []) = pyLower ref) ∧
    (∀ ref d : List Char, d ≠ [] → uniquenessKey ref (some d) = pyLower d) ∧
    uniquenessKey "Repo/App:v1".toList none = uniquenessKey "repo/app:v1".toList none ∧
    (∀ r1 r2 d : List Char, d ≠ [] → uniquenessKey r1 (some d) = uniquenessKey r2 (some d)) := by
  have key_some : ∀ ref d : List Char, d ≠ [] → uniquenessKey ref (some d) = pyLower d := by
    intro ref d hd
    have hde : d.isEmpty = false := by
      cases d with
      | nil => exact absurd rfl hd
      | cons a l => rfl
    simp [uniquenessKey, hde]
  refine ⟨fun ref => rfl, fun ref => rfl, key_some, by decide, ?_⟩
  intro r1 r2 d hd
  rw [key_some r1 d hd, key_some r2 d hd]

/-- Witness for C8 amended at a concrete reference and digest. -/
theorem c8_uniqueness_key_amended_witness :
    uniquenessKey "app".toList (some sha256c) = pyLower sha256c :=
  c8_uniqueness_key_amended.2.2.1 "app".toList sha256c (by decide)

/-- A list starting with a non-whitespace character keeps that head
through `strip()`. -/
theorem pyStrip_cons_of_not_space {c : Char} (hc : isPySpace c = false) (t : List Char) :
    ∃ r, pyStrip (c :: t) = c :: r := by
  unfold pyStrip
  rw [List.dropWhile_cons, if_neg (by simp [hc])]
  rw [List.reverse_cons, List.dropWhile_append]
  cases h : (t.reverse.dropWhile isPySpace).isEmpty
  · refine ⟨(t.reverse.dropWhile isPySpace).reverse, ?_⟩
    simp
  · refine ⟨[], ?_⟩
    simp [List.dropWhile_cons, hc]

/-- Any string whose first character is `@` is rejected by
`is_valid_image_ref`, whatever follows. -/
theorem isValid_at_head_false (t : List Char) : isValidImageRef ('@' :: t) = false := by
  obtain ⟨r, hr⟩ := pyStrip_cons_of_not_space (c := '@') rfl t
  have hs : stripScheme ('@' :: r) = '@' :: r := rfl
  unfold isValidImageRef
  rw [hr, hs]
  rfl

/-- C7: `is_valid_image_ref` returns false exactly when, after the
trim-then-strip normalization, the string is empty, starts with `:` or
`@`, or lacks an alphanumeric character before the first `:` or `@`;
in particular the empty string, `":"`, `":v1.2.3"` and `"@sha256:"`
followed by 64 hex characters are all rejected. -/
theorem c7_valid_ref_characterization :
    (∀ s : List Char, isValidImageRef s = false ↔ invalidRefPerSpec s = true) ∧
    isValidImageRef [] = false ∧
    isValidImageRef ":".toList = false ∧
    isValidImageRef ":v1.2.3".toList = false ∧
    (∀ hex : List Char, hex.length = 64 → hex.all isHexChar = true →
      isValidImageRef ("@sha256:".toList ++ hex) = false) := by
  refine ⟨?_, by decide, by decide, by decide, ?_⟩
  · intro s
    unfold isValidImageRef invalidRefPerSpec
    cases h : stripScheme (pyStrip s) with
    | nil => simp
    | cons c rest =>
      by_cases hc : (c == ':' || c == '@') = true
      · simp [hc]
      · simp [hc]
  · intro hex _ _
    exact isValid_at_head_false ("sha256:".toList ++ hex)

/-- Witness for C7 at the concrete 64-hex digest string. -/
theorem c7_valid_ref_characterization_witness :
    isValidImageRef ("@sha256:".toList ++ aHex) = false :=
  c7_valid_ref_characterization.2.2.2.2 aHex (by decide) (by decide)

/-- When the source serves the page sequence `ps` along the issued
cursor chain, the loop returns the accumulator followed by all pages'
items in page order, for any sufficient step budget. -/
theorem listPodsFuel_of_feeds (src : Option (List Char) → PodPage) :
    ∀ (ps : List PodPage) (cursor : Option (List Char)) (acc : List Pod) (fuel : Nat),
      feeds src cursor ps = true → ps.length ≤ fuel →
      listPodsFuel src fuel cursor acc =
        some (acc ++ (ps.map (fun p => p.items)).flatten) := by
  intro ps
  induction ps with
  | nil =>
    intro cursor acc fuel h _
    simp [feeds] at h
  | cons p rest ih =>
    intro cursor acc fuel h hlen
    cases fuel with
    | zero => simp at hlen
    | succ n =>
      cases rest with
      | nil =>
        rw [feeds] at h
        rw [Bool.and_eq_true] at h
        have hsrc : src cursor = p := of_decide_eq_true h.1
        cases ht : p.continueToken with
        | none => simp [listPodsFuel, hsrc, ht]
        | some t =>
          have hte : t.isEmpty = true := by
            have := h.2
            rw [ht] at this
            exact this
          simp [listPodsFuel, hsrc, ht, hte]
      | cons q rest2 =>
        rw [feeds] at h
        rw [Bool.and_eq_true] at h
        have hsrc : src cursor = p := of_decide_eq_true h.1
        cases ht : p.continueToken with
        | none =>
          have := h.2
          rw [ht] at this
          exact absurd this (by simp)
        | some t =>
          have h2 := h.2
          rw [ht] at h2
          rw [Bool.and_eq_true] at h2
          have hne : t.isEmpty = false := by
            cases hte : t.isEmpty
            · rfl
            · rw [hte] at h2; exact absurd h2.1 (by simp)
          have hlen2 : (q :: rest2).length ≤ n := by
            simp at hlen
            simp
            omega
          have hrec := ih (some t) (acc ++ p.items) n h2.2 hlen2
          simp [listPodsFuel, hsrc, ht, hne, hrec]

/-- C5: for every source serving a finite page sequence whose last
response carries an empty or absent continuation token — the first
request issued with no cursor and each subsequent one with the
previously returned token, as the `feeds` hypothesis encodes — the
paginated lister returns exactly the concatenation of all pages' items
in page order and stops at the first falsy token. -/
theorem c5_paginated_lister :
    ∀ (src : Option (List Char) → PodPage) (ps : List PodPage) (fuel : Nat),
      feeds src none ps = true → ps.length ≤ fuel →
      listPodsFuel src fuel none [] = some ((ps.map (fun p => p.items)).flatten) := by
  intro src ps fuel h hl
  simpa using listPodsFuel_of_feeds src ps none [] fuel h hl

/-- Witness for C5: three pages of sizes 2, 2, 1 with tokens `T1`,
`T2`, `""` accumulate exactly the five items. -/
theorem c5_paginated_lister_witness :
    listPodsFuel exampleSource 3 none [] =
      some (([examplePage1, examplePage2, examplePage3].map (fun p => p.items)).flatten) :=
  c5_paginated_lister exampleSource [examplePage1, examplePage2, examplePage3] 3
    (by decide) (by decide)

/-- Against the constant-token source the loop never completes,
whatever the budget, cursor and accumulator. -/
theorem alwaysToken_runs_forever :
    ∀ (fuel : Nat) (cursor : Option (List Char)) (acc : List Pod),
      listPodsFuel alwaysToken fuel cursor acc = none := by
  intro fuel
  induction fuel with
  | zero => intro cursor acc; rfl
  | succ n ih =>
    intro cursor acc
    simpa [listPodsFuel, alwaysToken] using ih (some "T".toList) acc

/-- C4 counterexample: a source whose every response repeats the same
non-empty continuation token bit for bit makes the pagination loop run
forever — no step budget suffices, so the loop does not terminate. -/
theorem c4_pagination_cex :
    ¬ ∃ (fuel : Nat) (out : List Pod), listPodsFuel alwaysToken fuel none [] = some out := by
  rintro ⟨fuel, out, h⟩
  rw [alwaysToken_runs_forever] at h
  exact Option.noConfusion h

/-- C4 amended: the pagination loop terminates for every remote source
that eventually returns an empty or absent token along the issued
cursor chain; for a source that forever returns a non-empty token it
does not terminate (see the counterexample). -/
theorem c4_pagination_amended :
    ∀ (src : Option (List Char) → PodPage) (ps : List PodPage) (fuel : Nat),
      feeds src none ps = true → ps.length ≤ fuel →
      (listPodsFuel src fuel none []).isSome = true := by
  intro src ps fuel h hl
  rw [listPodsFuel_of_feeds src ps none [] fuel h hl]
  rfl

/-- Witness for C4 amended at the three-page example source. -/
theorem c4_pagination_amended_witness :
    (listPodsFuel exampleSource 3 none []).isSome = true :=
  c4_pagination_amended exampleSource [examplePage1, examplePage2, examplePage3] 3
    (by decide) (by decide)

/-- A successful `_DIGEST_RE` match is never the empty string. -/
theorem digestHere_ne_nil {s d : List Char} (h : digestHere s = some d) : d ≠ [] := by
  cases hta : s.takeWhile isAlgoChar with
  | nil => simp [digestHere, hta] at h
  | cons a ar =>
    cases htd : s.dropWhile isAlgoChar with
    | nil => simp [digestHere, hta, htd] at h
    | cons x xs =>
      by_cases hx : x = ':'
      · simp only [digestHere, hta, htd, if_pos hx] at h
        split at h
        · rw [← Option.some.inj h]
          simp
        · exact Option.noConfusion h
      · simp only [digestHere, hta, htd, if_neg hx] at h
        exact Option.noConfusion h

/-- A successful digest search result is never the empty string. -/
theorem digestSearch_ne_nil (s : List Char) : ∀ d, digestSearch s = some d → d ≠ [] := by
  induction s with
  | nil => intro d h; exact Option.noConfusion h
  | cons c rest ih =>
    intro d h
    cases hd : digestHere (c :: rest) with
    | some e =>
      rw [digestSearch, hd] at h
      rw [← Option.some.inj h]
      exact digestHere_ne_nil hd
    | none =>
      rw [digestSearch, hd] at h
      exact ih d h

/-- An extracted digest is never the empty string. -/
theorem extractDigest_ne_nil (cs : List (List Char)) :
    ∀ d, extractDigest cs = some d → d ≠ [] := by
  induction cs with
  | nil => intro d h; exact Option.noConfusion h
  | cons c rest ih =>
    intro d h
    by_cases hc : c.isEmpty
    · rw [extractDigest, if_pos hc] at h
      exact ih d h
    · cases hs : digestSearch c with
      | some e =>
        rw [extractDigest, if_neg hc, hs] at h
        rw [← Option.some.inj h]
        exact digestSearch_ne_nil c e hs
      | none =>
        rw [extractDigest, if_neg hc, hs] at h
        exact ih d h

/-- A reference composed with a non-empty digest either carries it as
the `@<digest>` suffix or already embedded a digest and was kept
unchanged. -/
theorem composeReference_digest_cases (image d : List Char) (hd : d ≠ []) :
    ('@' :: d).isSuffixOf (composeReference image (some d)) = true ∨
      hasAtDigest (composeReference image (some d)) = true := by
  by_cases h : hasAtDigest (stripScheme image) = true
  · right
    have hcomp : composeReference image (some d) = stripScheme image := by
      simp [composeReference, h]
    rw [hcomp]
    exact h
  · left
    have hde : d.isEmpty = false := by
      cases d with
      | nil => exact absurd rfl hd
      | cons a l => rfl
    have hcomp : composeReference image (some d) = stripScheme image ++ '@' :: d := by
      simp [composeReference, h, hde]
    rw [hcomp, List.isSuffixOf_iff_suffix]
    exact List.suffix_append _ _

/-- C2 counterexample: a status whose image string embeds one digest
while its imageID carries a different one produces a ContainerImage
whose digest is set but whose reference does not end in `@<digest>`. -/
theorem c2_digest_suffix_cex :
    fromStatuses (some [mismatchStatus]) =
      [{ ref := "repo@".toList ++ sha256a, name := "repo".toList, digest := some sha512b }] ∧
    (fromStatuses (some [mismatchStatus])).all digestSuffixOk = false := by
  constructor
  · decide
  · decide

/-- C2 amended: for every image produced by status or spec extraction,
if the digest field is set then the reference either ends with
`@<digest>` or itself contains an embedded `@<algo>:<hex>` digest (the
case where compose kept an already digest-qualified image string
unchanged while the digest was extracted from elsewhere). -/
theorem c2_digest_suffix_amended :
    ∀ (statuses : Option (List ContainerStatus)) (specs : Option (List ContainerSpec))
      (img : ContainerImage),
      img ∈ fromStatuses statuses ∨ img ∈ fromContainerSpecs specs →
      ∀ d, img.digest = some d →
        ('@' :: d).isSuffixOf img.ref = true ∨ hasAtDigest img.ref = true := by
  intro statuses specs img hmem d hd
  rcases hmem with hmem | hmem
  · cases statuses with
    | none => simp [fromStatuses] at hmem
    | some l =>
      rw [fromStatuses, List.mem_filterMap] at hmem
      obtain ⟨st, _, hst⟩ := hmem
      rw [statusImage] at hst
      split at hst
      · have himg := Option.some.inj hst
        rw [← himg] at hd ⊢
        simp only at hd ⊢
        rw [hd]
        exact composeReference_digest_cases _ d (extractDigest_ne_nil _ d hd)
      · exact Option.noConfusion hst
  · cases specs with
    | none => simp [fromContainerSpecs] at hmem
    | some l =>
      rw [fromContainerSpecs, List.mem_filterMap] at hmem
      obtain ⟨c, _, hc⟩ := hmem
      rw [specImage] at hc
      split at hc
      · have himg := Option.some.inj hc
        rw [← himg] at hd ⊢
        simp only at hd ⊢
        rw [hd]
        exact composeReference_digest_cases _ d (extractDigest_ne_nil _ d hd)
      · exact Option.noConfusion hc

/-- Witness for C2 amended: the ordinary status whose digest comes from
the imageID yields a reference carrying the digest suffix. -/
theorem c2_digest_suffix_amended_witness :
    ('@' :: sha256c).isSuffixOf okStatusImage.ref = true ∨
      hasAtDigest okStatusImage.ref = true :=
  c2_digest_suffix_amended (some [okStatus]) none okStatusImage
    (Or.inl (by decide)) sha256c (by decide)

/-- An embedded-digest occurrence survives prepending characters. -/
theorem hasAtDigest_append_right (xs ys : List Char) (h : hasAtDigest ys = true) :
    hasAtDigest (xs ++ ys) = true := by
  induction xs with
  | nil => simpa using h
  | cons x xs ih => simp [hasAtDigest, ih]

/-- A string formed by `@` before a matching digest contains an
embedded digest. -/
theorem hasAtDigest_cons_at (d : List Char) (h : (digestHere d).isSome = true) :
    hasAtDigest ('@' :: d) = true := by
  simp [hasAtDigest, atDigestHere, h]

/-- Composing with no digest is exactly the scheme strip. -/
theorem composeReference_none_eq (x : List Char) : composeReference x none = stripScheme x := by
  simp [composeReference]

/-- Composing with a well-formed digest always yields a reference with
an embedded digest occurrence. -/
theorem hasAtDigest_compose_some (image dd : List Char)
    (hdd : (digestHere dd).isSome = true) :
    hasAtDigest (composeReference image (some dd)) = true := by
  by_cases h : hasAtDigest (stripScheme image) = true
  · have hcomp : composeReference image (some dd) = stripScheme image := by
      simp [composeReference, h]
    rw [hcomp]
    exact h
  · have hde : dd.isEmpty = false := by
      cases dd with
      | nil => simp [digestHere] at hdd
      | cons a l => rfl
    have hcomp : composeReference image (some dd) = stripScheme image ++ '@' :: dd := by
      simp [composeReference, h, hde]
    rw [hcomp]
    exact hasAtDigest_append_right _ _ (hasAtDigest_cons_at dd hdd)

/-- C6 counterexample: the claim fails as stated on a valid image
carrying a nested transport scheme and a well-formed digest — the outer
compose strips a second scheme, so re-composing changes the result. -/
theorem c6_compose_idem_cex :
    isValidImageRef nestedSchemeImage = true ∧
    (digestHere sha256a).isSome = true ∧
    composeReference (composeReference nestedSchemeImage (some sha256a)) (some sha256a) ≠
      composeReference nestedSchemeImage (some sha256a) := by
  refine ⟨by decide, by decide, by decide⟩

/-- C6 amended: for every digest option that is absent or a well-formed
`<algorithm>:<hex>` digest, composeReference is idempotent on every
image whose composed reference is scheme-strip stable (stripping a
leading transport scheme changes nothing — which fails only for images
with a nested scheme, as the counterexample shows); and, unconditionally,
an image already containing an embedded `@<algorithm>:<hex>` digest is
returned scheme-stripped and otherwise unchanged, never with a second
digest appended. -/
theorem c6_compose_idem_amended :
    (∀ (image : List Char) (dOpt : Option (List Char)),
      (dOpt = none ∨ ∃ dd, dOpt = some dd ∧ (digestHere dd).isSome = true) →
      stripScheme (composeReference image dOpt) = composeReference image dOpt →
      composeReference (composeReference image dOpt) dOpt = composeReference image dOpt) ∧
    (∀ (image : List Char) (dOpt : Option (List Char)),
      hasAtDigest (stripScheme image) = true →
      composeReference image dOpt = stripScheme image) := by
  constructor
  · intro image dOpt hshape hstable
    rcases hshape with rfl | ⟨dd, rfl, hdd⟩
    · rw [composeReference_none_eq, hstable]
    · have hr : hasAtDigest (composeReference image (some dd)) = true :=
        hasAtDigest_compose_some image dd hdd
      conv_lhs => rw [composeReference]
      rw [hstable, if_pos hr]
  · intro image dOpt h
    simp [composeReference, h]

/-- Witness for C6 amended: idempotence at a plain image with a
well-formed digest, and unchanged-return at an already digest-qualified
image. -/
theorem c6_compose_idem_amended_witness :
    composeReference (composeReference "nginx".toList (some sha256c)) (some sha256c) =
        composeReference "nginx".toList (some sha256c) ∧
    composeReference ("docker://repo@".toList ++ sha256a) none =
        stripScheme ("docker://repo@".toList ++ sha256a) :=
  ⟨c6_compose_idem_amended.1 "nginx".toList (some sha256c)
      (Or.inr ⟨sha256c, rfl, by decide⟩) (by decide),
   c6_compose_idem_amended.2 ("docker://repo@".toList ++ sha256a) none (by decide)⟩

/-- Lookup steps over a cons cell by comparing its key. -/
theorem lookupAssoc_cons {α : Type} (k' : List Char) (v : α) (rest : List (List Char × α))
    (k : List Char) :
    lookupAssoc ((k', v) :: rest) k = if k' == k then some v else lookupAssoc rest k := by
  cases h : k' == k <;> simp [lookupAssoc, List.find?_cons, h]

/-- Dict assignment makes the assigned key's lookup return the value. -/
theorem lookupAssoc_upsert_self {α : Type} (m : List (List Char × α)) (k : List Char) (v : α) :
    lookupAssoc (upsertAssoc m k v) k = some v := by
  induction m with
  | nil => simp [upsertAssoc, lookupAssoc_cons]
  | cons p rest ih =>
    obtain ⟨k', v'⟩ := p
    by_cases h : (k' == k) = true
    · simp [upsertAssoc, h, lookupAssoc_cons]
    · simp only [upsertAssoc]
      rw [if_neg (by simp [h]), lookupAssoc_cons, if_neg (by simp [h])]
      exact ih

/-- Dict assignment leaves every other key's lookup unchanged. -/
theorem lookupAssoc_upsert_ne {α : Type} (m : List (List Char × α)) (k : List Char) (v : α)
    (k' : List Char) (hne : ¬ k' = k) :
    lookupAssoc (upsertAssoc m k v) k' = lookupAssoc m k' := by
  have h1 : (k == k') = false := beq_eq_false_iff_ne.mpr (fun hh => hne hh.symm)
  induction m with
  | nil => simp [upsertAssoc, lookupAssoc_cons, h1, lookupAssoc]
  | cons p rest ih =>
    obtain ⟨k'', v''⟩ := p
    by_cases h : (k'' == k) = true
    · have hk : k'' = k := eq_of_beq h
      have h2 : (k'' == k') = false := by
        rw [hk]
        exact h1
      simp only [upsertAssoc]
      rw [if_pos h, lookupAssoc_cons, if_neg (by simp [h2]), lookupAssoc_cons,
        if_neg (by simp [h2])]
    · simp only [upsertAssoc]
      rw [if_neg (by simp [h]), lookupAssoc_cons, lookupAssoc_cons, ih]

/-- Every entry of an upserted dict either carries the assigned key or
a key already present. -/
theorem upsertAssoc_key_mem {α : Type} (m : List (List Char × α)) (k : List Char) (v : α) :
    ∀ q ∈ upsertAssoc m k v, q.1 = k ∨ ∃ w, (q.1, w) ∈ m := by
  induction m with
  | nil =>
    intro q hq
    simp [upsertAssoc] at hq
    left
    rw [hq]
  | cons p rest ih =>
    obtain ⟨k', v'⟩ := p
    intro q hq
    by_cases h : (k' == k) = true
    · rw [upsertAssoc, if_pos h] at hq
      rcases List.mem_cons.mp hq with rfl | hq2
      · left
        exact eq_of_beq h
      · right
        exact ⟨q.2, List.mem_cons_of_mem _ (by simpa using hq2)⟩
    · rw [upsertAssoc, if_neg h] at hq
      rcases List.mem_cons.mp hq with rfl | hq2
      · right
        exact ⟨v', List.mem_cons_self _ _⟩
      · rcases ih q hq2 with h1 | ⟨w, hw⟩
        · left
          exact h1
        · right
          exact ⟨w, List.mem_cons_of_mem _ hw⟩

/-- Dict assignment preserves distinctness of keys. -/
theorem upsertAssoc_nodupKeys {α : Type} (m : List (List Char × α)) (k : List Char) (v : α)
    (h : m.Pairwise (fun p q => p.1 ≠ q.1)) :
    (upsertAssoc m k v).Pairwise (fun p q => p.1 ≠ q.1) := by
  induction m with
  | nil => simp [upsertAssoc]
  | cons p rest ih =>
    obtain ⟨k', v'⟩ := p
    rw [List.pairwise_cons] at h
    by_cases hk : (k' == k) = true
    · rw [upsertAssoc, if_pos hk, List.pairwise_cons]
      exact ⟨h.1, h.2⟩
    · rw [upsertAssoc, if_neg hk, List.pairwise_cons]
      refine ⟨?_, ih h.2⟩
      intro q hq
      rcases upsertAssoc_key_mem rest k v q hq with h1 | ⟨w, hw⟩
      · rw [h1]
        intro hcon
        have hkk : k' = k := hcon
        rw [hkk] at hk
        simp at hk
      · exact h.1 (q.1, w) hw

/-- In a dict with distinct keys, a key has exactly one entry when its
lookup succeeds and none otherwise. -/
theorem lookupAssoc_count {α : Type} (m : List (List Char × α)) (k : List Char)
    (hnd : m.Pairwise (fun p q => p.1 ≠ q.1)) :
    m.countP (fun p => p.1 == k) = if (lookupAssoc m k).isSome then 1 else 0 := by
  induction m with
  | nil => simp [lookupAssoc]
  | cons p rest ih =>
    obtain ⟨k', v'⟩ := p
    rw [List.pairwise_cons] at hnd
    rw [List.countP_cons, lookupAssoc_cons]
    by_cases h : (k' == k) = true
    · have hzero : rest.countP (fun p => p.1 == k) = 0 := by
        rw [List.countP_eq_zero]
        intro q hq
        have : k' ≠ q.1 := hnd.1 q hq
        rw [← eq_of_beq h]
        simpa using fun hc => this (eq_of_beq hc).symm
      simp [h, hzero]
    · simp only [h]
      rw [ih hnd.2]
      simp [h]

/-- One step of the future-collection fold. -/
theorem scanPairAux_cons (scan : List Char → ScanOutcome) (n : List Char)
    (rest : List (List Char)) (acc : List (List Char × ScanRes) × List (List Char × List Char)) :
    scanPairAux scan (n :: rest) acc =
      scanPairAux scan rest
        (match scan n with
         | .ok r => (upsertAssoc acc.1 n r, acc.2)
         | .apiErr m => (acc.1, upsertAssoc acc.2 n ("Kubernetes API error: ".toList ++ m))
         | .unexpected c m =>
           (acc.1, upsertAssoc acc.2 n ("Unexpected error: ".toList ++ c ++ ": ".toList ++ m))) :=
  rfl

/-- Each key's entries in the collected results and errors dicts are
determined by that key's own outcome alone: for a name in the submitted
list, the results lookup gives its scan result exactly when it
succeeded, and the errors lookup gives its formatted message exactly
when it failed; other keys fall through to the accumulator. -/
theorem scanPairAux_lookup (scan : List Char → ScanOutcome) (names : List (List Char)) :
    ∀ (acc : List (List Char × ScanRes) × List (List Char × List Char)) (k : List Char),
      lookupAssoc (scanPairAux scan names acc).1 k =
        (if k ∈ names ∧ (outcomeRes (scan k)).isSome = true then outcomeRes (scan k)
         else lookupAssoc acc.1 k) ∧
      lookupAssoc (scanPairAux scan names acc).2 k =
        (if k ∈ names ∧ (outcomeErrText (scan k)).isSome = true then outcomeErrText (scan k)
         else lookupAssoc acc.2 k) := by
  induction names with
  | nil =>
    intro acc k
    simp [scanPairAux]
  | cons n rest ih =>
    intro acc k
    rcases hsn : scan n with r | m | ⟨cls, m⟩
    · -- scan n succeeded: results upserted at n, errors untouched
      have hstep := scanPairAux_cons scan n rest acc
      simp only [hsn] at hstep
      rw [hstep]
      obtain ⟨ih1, ih2⟩ := ih (upsertAssoc acc.1 n r, acc.2) k
      constructor
      · rw [ih1]
        by_cases hmem : k ∈ rest ∧ (outcomeRes (scan k)).isSome = true
        · rw [if_pos hmem, if_pos ⟨List.mem_cons_of_mem n hmem.1, hmem.2⟩]
        · rw [if_neg hmem]
          by_cases hkn : k = n
          · subst hkn
            have hsome : (outcomeRes (scan k)).isSome = true := by
              rw [hsn]
              rfl
            rw [if_pos ⟨List.mem_cons_self k rest, hsome⟩]
            rw [lookupAssoc_upsert_self, hsn]
            rfl
          · rw [lookupAssoc_upsert_ne acc.1 n r k hkn]
            have hcond : ¬(k ∈ n :: rest ∧ (outcomeRes (scan k)).isSome = true) := by
              rintro ⟨hm, hp⟩
              rcases List.mem_cons.mp hm with rfl | hm2
              · exact hkn rfl
              · exact hmem ⟨hm2, hp⟩
            rw [if_neg hcond]
      · rw [ih2]
        by_cases hmem : k ∈ rest ∧ (outcomeErrText (scan k)).isSome = true
        · rw [if_pos hmem, if_pos ⟨List.mem_cons_of_mem n hmem.1, hmem.2⟩]
        · rw [if_neg hmem]
          have hcond : ¬(k ∈ n :: rest ∧ (outcomeErrText (scan k)).isSome = true) := by
            rintro ⟨hm, hp⟩
            rcases List.mem_cons.mp hm with rfl | hm2
            · rw [hsn] at hp
              simp [outcomeErrText] at hp
            · exact hmem ⟨hm2, hp⟩
          rw [if_neg hcond]
    · -- ApiException: errors upserted at n, results untouched
      have hstep := scanPairAux_cons scan n rest acc
      simp only [hsn] at hstep
      rw [hstep]
      obtain ⟨ih1, ih2⟩ :=
        ih (acc.1, upsertAssoc acc.2 n ("Kubernetes API error: ".toList ++ m)) k
      constructor
      · rw [ih1]
        by_cases hmem : k ∈ rest ∧ (outcomeRes (scan k)).isSome = true
        · rw [if_pos hmem, if_pos ⟨List.mem_cons_of_mem n hmem.1, hmem.2⟩]
        · rw [if_neg hmem]
          have hcond : ¬(k ∈ n :: rest ∧ (outcomeRes (scan k)).isSome = true) := by
            rintro ⟨hm, hp⟩
            rcases List.mem_cons.mp hm with rfl | hm2
            · rw [hsn] at hp
              simp [outcomeRes] at hp
            · exact hmem ⟨hm2, hp⟩
          rw [if_neg hcond]
      · rw [ih2]
        by_cases hmem : k ∈ rest ∧ (outcomeErrText (scan k)).isSome = true
        · rw [if_pos hmem, if_pos ⟨List.mem_cons_of_mem n hmem.1, hmem.2⟩]
        · rw [if_neg hmem]
          by_cases hkn : k = n
          · subst hkn
            have hsome : (outcomeErrText (scan k)).isSome = true := by
              rw [hsn]
              rfl
            rw [if_pos ⟨List.mem_cons_self k rest, hsome⟩]
            rw [lookupAssoc_upsert_self, hsn]
            rfl
          · rw [lookupAssoc_upsert_ne acc.2 n _ k hkn]
            have hcond : ¬(k ∈ n :: rest ∧ (outcomeErrText (scan k)).isSome = true) := by
              rintro ⟨hm, hp⟩
              rcases List.mem_cons.mp hm with rfl | hm2
              · exact hkn rfl
              · exact hmem ⟨hm2, hp⟩
            rw [if_neg hcond]
    · -- unexpected exception: errors upserted at n, results untouched
      have hstep := scanPairAux_cons scan n rest acc
      simp only [hsn] at hstep
      rw [hstep]
      obtain ⟨ih1, ih2⟩ :=
        ih (acc.1, upsertAssoc acc.2 n ("Unexpected error: ".toList ++ cls ++ ": ".toList ++ m)) k
      constructor
      · rw [ih1]
        by_cases hmem : k ∈ rest ∧ (outcomeRes (scan k)).isSome = true
        · rw [if_pos hmem, if_pos ⟨List.mem_cons_of_mem n hmem.1, hmem.2⟩]
        · rw [if_neg hmem]
          have hcond : ¬(k ∈ n :: rest ∧ (outcomeRes (scan k)).isSome = true) := by
            rintro ⟨hm, hp⟩
            rcases List.mem_cons.mp hm with rfl | hm2
            · rw [hsn] at hp
              simp [outcomeRes] at hp
            · exact hmem ⟨hm2, hp⟩
          rw [if_neg hcond]
      · rw [ih2]
        by_cases hmem : k ∈ rest ∧ (outcomeErrText (scan k)).isSome = true
        · rw [if_pos hmem, if_pos ⟨List.mem_cons_of_mem n hmem.1, hmem.2⟩]
        · rw [if_neg hmem]
          by_cases hkn : k = n
          · subst hkn
            have hsome : (outcomeErrText (scan k)).isSome = true := by
              rw [hsn]
              rfl
            rw [if_pos ⟨List.mem_cons_self k rest, hsome⟩]
            rw [lookupAssoc_upsert_self, hsn]
            rfl
          · rw [lookupAssoc_upsert_ne acc.2 n _ k hkn]
            have hcond : ¬(k ∈ n :: rest ∧ (outcomeErrText (scan k)).isSome = true) := by
              rintro ⟨hm, hp⟩
              rcases List.mem_cons.mp hm with rfl | hm2
              · exact hkn rfl
              · exact hmem ⟨hm2, hp⟩
            rw [if_neg hcond]

/-- The collected results and errors dicts keep their keys distinct. -/
theorem scanPairAux_nodupKeys (scan : List Char → ScanOutcome) (names : List (List Char)) :
    ∀ acc : List (List Char × ScanRes) × List (List Char × List Char),
      acc.1.Pairwise (fun p q => p.1 ≠ q.1) →
      acc.2.Pairwise (fun p q => p.1 ≠ q.1) →
      (scanPairAux scan names acc).1.Pairwise (fun p q => p.1 ≠ q.1) ∧
      (scanPairAux scan names acc).2.Pairwise (fun p q => p.1 ≠ q.1) := by
  induction names with
  | nil =>
    intro acc h1 h2
    exact ⟨h1, h2⟩
  | cons n rest ih =>
    intro acc h1 h2
    rcases hsn : scan n with r | m | ⟨cls, m⟩
    · have hstep := scanPairAux_cons scan n rest acc
      simp only [hsn] at hstep
      rw [hstep]
      exact ih _ (upsertAssoc_nodupKeys acc.1 n r h1) h2
    · have hstep := scanPairAux_cons scan n rest acc
      simp only [hsn] at hstep
      rw [hstep]
      exact ih _ h1 (upsertAssoc_nodupKeys acc.2 n _ h2)
    · have hstep := scanPairAux_cons scan n rest acc
      simp only [hsn] at hstep
      rw [hstep]
      exact ih _ h1 (upsertAssoc_nodupKeys acc.2 n _ h2)

/-- C1: for every submitted target list, each target's entries in the
collected results and errors dicts are determined by its own outcome
alone — a successful target is looked up to its scan result in the
results dict with exactly one entry and has no entry in the errors
dict; a failed target is looked up to its formatted error message with
exactly one entry in the errors dict and has no entry in the results
dict; and the two dicts are key-disjoint.  Since each lookup equals a
function of that target's own outcome, no target's failure can remove,
alter or prevent another target's result. -/
theorem c1_partition :
    ∀ (scan : List Char → ScanOutcome) (names : List (List Char)) (name : List Char),
      name ∈ names →
      lookupAssoc (scanPairOf scan names).1 name = outcomeRes (scan name) ∧
      lookupAssoc (scanPairOf scan names).2 name = outcomeErrText (scan name) ∧
      ((scanPairOf scan names).1.countP (fun p => p.1 == name) =
        if (outcomeRes (scan name)).isSome then 1 else 0) ∧
      ((scanPairOf scan names).2.countP (fun p => p.1 == name) =
        if (outcomeErrText (scan name)).isSome then 1 else 0) ∧
      (∀ k, lookupAssoc (scanPairOf scan names).1 k = none ∨
            lookupAssoc (scanPairOf scan names).2 k = none) := by
  intro scan names name hmem
  have hchar := scanPairAux_lookup scan names ([], []) name
  have hres : lookupAssoc (scanPairOf scan names).1 name = outcomeRes (scan name) := by
    rw [scanPairOf, hchar.1]
    cases hP : outcomeRes (scan name) with
    | none => rw [if_neg (by simp [hP])]; rfl
    | some r => rw [if_pos ⟨hmem, by simp [hP]⟩]
  have herr : lookupAssoc (scanPairOf scan names).2 name = outcomeErrText (scan name) := by
    rw [scanPairOf, hchar.2]
    cases hP : outcomeErrText (scan name) with
    | none => rw [if_neg (by simp [hP])]; rfl
    | some e => rw [if_pos ⟨hmem, by simp [hP]⟩]
  have hnd := scanPairAux_nodupKeys scan names ([], []) (by simp) (by simp)
  refine ⟨hres, herr, ?_, ?_, ?_⟩
  · rw [scanPairOf, lookupAssoc_count _ _ hnd.1]
    rw [scanPairOf] at hres
    rw [hres]
  · rw [scanPairOf, lookupAssoc_count _ _ hnd.2]
    rw [scanPairOf] at herr
    rw [herr]
  · intro k
    have hchark := scanPairAux_lookup scan names ([], []) k
    cases ho : scan k with
    | ok r =>
      right
      rw [scanPairOf, hchark.2, if_neg (by rintro ⟨_, hp⟩; rw [ho] at hp; simp [outcomeErrText] at hp)]
      rfl
    | apiErr m =>
      left
      rw [scanPairOf, hchark.1, if_neg (by rintro ⟨_, hp⟩; rw [ho] at hp; simp [outcomeRes] at hp)]
      rfl
    | unexpected cls m =>
      left
      rw [scanPairOf, hchark.1, if_neg (by rintro ⟨_, hp⟩; rw [ho] at hp; simp [outcomeRes] at hp)]
      rfl

/-- Witness for C1: with targets `a`, `b`, `c` where only `b` raises an
authorization error, `b` is looked up to its formatted failure in the
errors dict and to nothing in the results dict, while `a` is looked up
to its result. -/
theorem c1_partition_witness :
    lookupAssoc (scanPairOf bFailsScan ["a".toList, "b".toList, "c".toList]).2 "b".toList =
      outcomeErrText (bFailsScan "b".toList) ∧
    lookupAssoc (scanPairOf bFailsScan ["a".toList, "b".toList, "c".toList]).1 "b".toList =
      outcomeRes (bFailsScan "b".toList) ∧
    lookupAssoc (scanPairOf bFailsScan ["a".toList, "b".toList, "c".toList]).1 "a".toList =
      outcomeRes (bFailsScan "a".toList) :=
  ⟨(c1_partition bFailsScan _ _ (by simp)).2.1,
   (c1_partition bFailsScan _ _ (by simp)).1,
   (c1_partition bFailsScan _ "a".toList (by simp)).1⟩

/-- Wrapping every value in `MergedVal.res` commutes with lookup. -/
theorem lookupAssoc_map_res (m : List (List Char × ScanRes)) (k : List Char) :
    lookupAssoc (m.map (fun p => (p.1, MergedVal.res p.2))) k =
      (lookupAssoc m k).map MergedVal.res := by
  induction m with
  | nil => rfl
  | cons p rest ih =>
    obtain ⟨k', v'⟩ := p
    cases h : k' == k <;> simp [lookupAssoc_cons, h, ih]

/-- C10 counterexample: with the sole target literally named
`"__errors__"` succeeding, the returned dictionary's `"__errors__"` key
is present (bound to that target's successful result) although no
target failed — refuting the claim's "present if and only if at least
one target failed". -/
theorem c10_errors_key_cex :
    (lookupAssoc (scanMultipleContexts allOkScan [errorsKey]) errorsKey).isSome = true ∧
    (scanPairOf allOkScan [errorsKey]).2 = [] := by
  constructor
  · decide
  · decide

/-- C10 amended: scan_multiple_contexts returns the error dict inside
the same dictionary as the successes under the reserved key
`"__errors__"`, and the error dict is bound there exactly when at least
one target failed (with no failures the key can still be present, bound
to the successful result of a target literally so named); when a target
named `"__errors__"` succeeds while any other target fails, its
computed result is present in the internal results dict but the
returned entry is rebound to the error dict, and scan_images pops that
entry as its error map. -/
theorem c10_errors_key_amended :
    ∀ (scan : List Char → ScanOutcome) (names : List (List Char)),
      ((scanPairOf scan names).2 ≠ [] →
        lookupAssoc (scanMultipleContexts scan names) errorsKey =
          some (MergedVal.errs (scanPairOf scan names).2)) ∧
      ((∃ e, lookupAssoc (scanMultipleContexts scan names) errorsKey =
          some (MergedVal.errs e)) ↔ (scanPairOf scan names).2 ≠ []) ∧
      ((scanPairOf scan names).2 = [] →
        lookupAssoc (scanMultipleContexts scan names) errorsKey =
          (lookupAssoc (scanPairOf scan names).1 errorsKey).map MergedVal.res) ∧
      (∀ r, errorsKey ∈ names → scan errorsKey = .ok r →
        (scanPairOf scan names).2 ≠ [] →
        lookupAssoc (scanPairOf scan names).1 errorsKey = some r ∧
        lookupAssoc (scanMultipleContexts scan names) errorsKey =
          some (MergedVal.errs (scanPairOf scan names).2)) ∧
      ((scanPairOf scan names).2 ≠ [] →
        (scanImages scan names).2 = some (MergedVal.errs (scanPairOf scan names).2)) := by
  intro scan names
  have hbound : (scanPairOf scan names).2 ≠ [] →
      lookupAssoc (scanMultipleContexts scan names) errorsKey =
        some (MergedVal.errs (scanPairOf scan names).2) := by
    intro hne
    have hemp : (scanPairOf scan names).2.isEmpty = false := by
      cases hp : (scanPairOf scan names).2 with
      | nil => exact absurd hp hne
      | cons a l => rfl
    rw [scanMultipleContexts]
    simp only [hemp]
    rw [if_neg (by simp)]
    exact lookupAssoc_upsert_self _ _ _
  have hempty : (scanPairOf scan names).2 = [] →
      lookupAssoc (scanMultipleContexts scan names) errorsKey =
        (lookupAssoc (scanPairOf scan names).1 errorsKey).map MergedVal.res := by
    intro he
    rw [scanMultipleContexts]
    simp only [he]
    rw [if_pos (by rfl)]
    exact lookupAssoc_map_res _ _
  refine ⟨hbound, ?_, hempty, ?_, ?_⟩
  · constructor
    · rintro ⟨e, he⟩
      intro hcon
      rw [hempty hcon] at he
      cases hl : lookupAssoc (scanPairOf scan names).1 errorsKey with
      | none => rw [hl] at he; exact Option.noConfusion he
      | some r =>
        rw [hl] at he
        have := Option.some.inj he
        exact MergedVal.noConfusion this
    · intro hne
      exact ⟨_, hbound hne⟩
  · intro r hmem hok hne
    refine ⟨?_, hbound hne⟩
    have hchar := (scanPairAux_lookup scan names ([], []) errorsKey).1
    rw [scanPairOf, hchar, if_pos ⟨hmem, by rw [hok]; rfl⟩, hok]
    rfl
  · intro hne
    rw [scanImages]
    simp only [hbound hne]

/-- Witness for C10 amended: the target named `"__errors__"` succeeds
while `"b"` fails; the internal results dict holds its result, the
returned entry is rebound to the error dict, and scan_images pops the
error dict. -/
theorem c10_errors_key_amended_witness :
    (lookupAssoc (scanPairOf collisionScan [errorsKey, "b".toList]).1 errorsKey =
        some [("ns1".toList, [])] ∧
      lookupAssoc (scanMultipleContexts collisionScan [errorsKey, "b".toList]) errorsKey =
        some (MergedVal.errs (scanPairOf collisionScan [errorsKey, "b".toList]).2)) ∧
    (scanImages collisionScan [errorsKey, "b".toList]).2 =
      some (MergedVal.errs (scanPairOf collisionScan [errorsKey, "b".toList]).2) :=
  ⟨(c10_errors_key_amended collisionScan [errorsKey, "b".toList]).2.2.2.1
      [("ns1".toList, [])] (by simp) (by decide) (by decide),
   (c10_errors_key_amended collisionScan [errorsKey, "b".toList]).2.2.2.2 (by decide)⟩

/-- Updating a namespace's bucket makes its lookup return the updated
bucket (created from empty when the namespace was absent). -/
theorem setBucket_lookup_eq (m : List (List Char × Bucket)) (ns : List Char)
    (imgs : List ContainerImage) :
    lookupAssoc (setBucket m ns imgs) ns =
      some (bucketAddAll ((lookupAssoc m ns).getD []) imgs) := by
  induction m with
  | nil => simp [setBucket, lookupAssoc_cons, lookupAssoc]
  | cons p rest ih =>
    obtain ⟨n, b⟩ := p
    by_cases h : (n == ns) = true
    · simp [setBucket, h, lookupAssoc_cons]
    · simp [setBucket, h, lookupAssoc_cons, ih]

/-- Updating one namespace's bucket leaves other lookups unchanged. -/
theorem setBucket_lookup_ne (m : List (List Char × Bucket)) (ns : List Char)
    (imgs : List ContainerImage) (k : List Char) (h : ¬ k = ns) :
    lookupAssoc (setBucket m ns imgs) k = lookupAssoc m k := by
  have hb : (ns == k) = false := beq_eq_false_iff_ne.mpr (fun hh => h hh.symm)
  induction m with
  | nil => simp [setBucket, lookupAssoc_cons, hb, lookupAssoc]
  | cons p rest ih =>
    obtain ⟨n, b⟩ := p
    by_cases hn : (n == ns) = true
    · have : (n == k) = false := by
        rw [eq_of_beq hn]
        exact hb
      simp [setBucket, hn, lookupAssoc_cons, this]
    · simp [setBucket, hn, lookupAssoc_cons, ih]

/-- The per-namespace stream over a cons of pods. -/
theorem streamFor_cons (ns : List Char) (p : Pod) (pods : List Pod) :
    streamFor ns (p :: pods) =
      if podNamespace p == ns then collectPod p ++ streamFor ns pods
      else streamFor ns pods := by
  by_cases h : (podNamespace p == ns) = true <;> simp [streamFor, List.filter_cons, h]

/-- Folding images over an appended stream is sequential folding. -/
theorem bucketAddAll_append (b : Bucket) (l1 l2 : List ContainerImage) :
    bucketAddAll b (l1 ++ l2) = bucketAddAll (bucketAddAll b l1) l2 := by
  rw [bucketAddAll, bucketAddAll, bucketAddAll, List.foldl_append]

/-- The pod-loop fold of `scan_single_context`, characterized per
namespace: starting from `m`, a namespace's bucket accumulates exactly
its stream of collected images, and an entry exists exactly when it
already existed or some pod carries the namespace. -/
theorem buildNsMap_aux (pods : List Pod) :
    ∀ (m : List (List Char × Bucket)) (ns : List Char),
      lookupAssoc (pods.foldl (fun m p => setBucket m (podNamespace p) (collectPod p)) m) ns =
        (match lookupAssoc m ns with
         | some b => some (bucketAddAll b (streamFor ns pods))
         | none =>
           if pods.any (fun p => podNamespace p == ns) then
             some (bucketAddAll [] (streamFor ns pods))
           else none) := by
  induction pods with
  | nil =>
    intro m ns
    cases h : lookupAssoc m ns <;> simp [h, streamFor, bucketAddAll]
  | cons p pods ih =>
    intro m ns
    rw [List.foldl_cons, ih (setBucket m (podNamespace p) (collectPod p)) ns]
    by_cases hp : (podNamespace p == ns) = true
    · have hpe : podNamespace p = ns := eq_of_beq hp
      have hstream : streamFor ns (p :: pods) = collectPod p ++ streamFor ns pods := by
        rw [streamFor_cons, if_pos hp]
      have hany : (p :: pods).any (fun q => podNamespace q == ns) = true := by
        simp [List.any_cons, hp]
      rw [hpe, setBucket_lookup_eq m ns (collectPod p), hstream, hany]
      cases hm : lookupAssoc m ns with
      | some b => simp [hm, bucketAddAll_append]
      | none => simp [hm, bucketAddAll_append]
    · have hne : ¬ ns = podNamespace p := by
        intro hh
        rw [hh] at hp
        exact hp (beq_self_eq_true _)
      have hstream : streamFor ns (p :: pods) = streamFor ns pods := by
        rw [streamFor_cons, if_neg hp]
      have hany : (p :: pods).any (fun q => podNamespace q == ns) =
          pods.any (fun q => podNamespace q == ns) := by
        simp [List.any_cons, hp]
      rw [setBucket_lookup_ne m (podNamespace p) (collectPod p) ns hne, hstream, hany]

/-- Lookup characterization of the whole pod loop. -/
theorem buildNsMap_lookup (pods : List Pod) (ns : List Char) :
    lookupAssoc (buildNsMap pods) ns =
      (if pods.any (fun p => podNamespace p == ns) then
        some (bucketAddAll [] (streamFor ns pods))
      else none) := by
  rw [buildNsMap, buildNsMap_aux pods [] ns]
  rfl

/-- A failed lookup means no entry carries the key. -/
theorem lookupAssoc_none_keys {α : Type} (b : List (List Char × α)) (k : List Char)
    (h : lookupAssoc b k = none) : ∀ p ∈ b, p.1 ≠ k := by
  intro p hp
  rw [lookupAssoc, Option.map_eq_none'] at h
  have := List.find?_eq_none.mp h p hp
  simpa using this

/-- A successful lookup exhibits a matching entry. -/
theorem lookupAssoc_mem {α : Type} (b : List (List Char × α)) (k : List Char) (v : α)
    (h : lookupAssoc b k = some v) : (k, v) ∈ b := by
  rw [lookupAssoc] at h
  cases hf : List.find? (fun p => p.1 == k) b with
  | none => rw [hf] at h; exact Option.noConfusion h
  | some p =>
    rw [hf] at h
    have hp := List.find?_some hf
    have hm := List.mem_of_find?_eq_some hf
    have hv : p.2 = v := Option.some.inj h
    have hk : p.1 = k := eq_of_beq hp
    have hpe : p = (k, v) := by rw [← hk, ← hv]
    rw [← hpe]
    exact hm

/-- In a dict with distinct keys, membership determines the lookup. -/
theorem lookupAssoc_of_mem_nodup {α : Type} (b : List (List Char × α))
    (hnd : b.Pairwise (fun p q => p.1 ≠ q.1)) (k : List Char) (v : α)
    (h : (k, v) ∈ b) : lookupAssoc b k = some v := by
  induction b with
  | nil => cases h
  | cons p rest ih =>
    rw [List.pairwise_cons] at hnd
    rcases List.mem_cons.mp h with hh | hrest
    · rw [← hh, lookupAssoc_cons]
      simp
    · have hne : p.1 ≠ k := hnd.1 (k, v) hrest
      rw [lookupAssoc_cons, if_neg (by simpa using hne)]
      exact ih hnd.2 hrest

/-- Every bucket entry records its image under the image's key. -/
theorem bucketAddAll_keyTagged (imgs : List ContainerImage) :
    ∀ b : Bucket, (∀ q ∈ b, q.1 = ukeyOf q.2) →
      ∀ q ∈ bucketAddAll b imgs, q.1 = ukeyOf q.2 := by
  induction imgs with
  | nil => intro b hb; exact hb
  | cons x rest ih =>
    intro b hb
    have hstep : ∀ q ∈ bucketAdd b x, q.1 = ukeyOf q.2 := by
      intro q hq
      rw [bucketAdd] at hq
      by_cases hx : (lookupAssoc b (ukeyOf x)).isSome = true
      · rw [if_pos hx] at hq
        exact hb q hq
      · rw [if_neg hx] at hq
        rcases List.mem_append.mp hq with hq1 | hq2
        · exact hb q hq1
        · rw [List.mem_singleton] at hq2
          rw [hq2]
    exact ih (bucketAdd b x) hstep

/-- Buckets keep their keys distinct. -/
theorem bucketAddAll_nodup (imgs : List ContainerImage) :
    ∀ b : Bucket, b.Pairwise (fun p q => p.1 ≠ q.1) →
      (bucketAddAll b imgs).Pairwise (fun p q => p.1 ≠ q.1) := by
  induction imgs with
  | nil => intro b hb; exact hb
  | cons x rest ih =>
    intro b hb
    have hstep : (bucketAdd b x).Pairwise (fun p q => p.1 ≠ q.1) := by
      rw [bucketAdd]
      by_cases hx : (lookupAssoc b (ukeyOf x)).isSome = true
      · rw [if_pos hx]
        exact hb
      · rw [if_neg hx]
        rw [List.pairwise_append]
        refine ⟨hb, by simp, ?_⟩
        intro p hp q hq
        rw [List.mem_singleton] at hq
        rw [hq]
        have hnone : lookupAssoc b (ukeyOf x) = none := by
          cases hl : lookupAssoc b (ukeyOf x) with
          | none => rfl
          | some w => rw [hl] at hx; simp at hx
        exact lookupAssoc_none_keys b (ukeyOf x) hnone p hp
    exact ih (bucketAdd b x) hstep

/-- Lookup over two appended dicts. -/
theorem lookupAssoc_append {α : Type} (b1 b2 : List (List Char × α)) (k : List Char) :
    lookupAssoc (b1 ++ b2) k = (lookupAssoc b1 k).or (lookupAssoc b2 k) := by
  rw [lookupAssoc, List.find?_append]
  cases h : List.find? (fun p => p.1 == k) b1 <;> simp [lookupAssoc, h]

/-- Folding a stream into a bucket: a key's entry is the existing one
or else the first stream image carrying that key — first seen wins. -/
theorem bucketAddAll_lookup (imgs : List ContainerImage) :
    ∀ (b : Bucket) (k : List Char),
      lookupAssoc (bucketAddAll b imgs) k =
        (lookupAssoc b k).or (imgs.find? (fun x => ukeyOf x == k)) := by
  induction imgs with
  | nil =>
    intro b k
    simp [bucketAddAll]
  | cons x rest ih =>
    intro b k
    rw [show bucketAddAll b (x :: rest) = bucketAddAll (bucketAdd b x) rest from rfl]
    rw [ih (bucketAdd b x) k, List.find?_cons]
    rw [bucketAdd]
    by_cases hsome : (lookupAssoc b (ukeyOf x)).isSome = true
    · rw [if_pos hsome]
      cases hbx : (ukeyOf x == k) with
      | false => rfl
      | true =>
        have hk : ukeyOf x = k := eq_of_beq hbx
        cases hl : lookupAssoc b k with
        | none =>
          rw [hk, hl] at hsome
          simp at hsome
        | some w => simp [hl]
    · rw [if_neg hsome]
      rw [lookupAssoc_append]
      rw [Option.or_assoc]
      cases hbx : (ukeyOf x == k) with
      | false =>
        have : lookupAssoc [(ukeyOf x, x)] k = none := by
          simp [lookupAssoc_cons, hbx, lookupAssoc]
        rw [this]
        rfl
      | true =>
        have : lookupAssoc [(ukeyOf x, x)] k = some x := by
          simp [lookupAssoc_cons, hbx]
        rw [this]
        rfl

/-- Stable insertion permutes the inserted element into the list. -/
theorem insertLe_perm {α : Type} (le : α → α → Bool) (x : α) (l : List α) :
    (insertLe le x l).Perm (x :: l) := by
  induction l with
  | nil => exact List.Perm.refl _
  | cons y ys ih =>
    rw [insertLe]
    by_cases h : le y x = true
    · rw [if_pos h]
      exact (ih.cons y).trans (List.Perm.swap x y ys)
    · rw [if_neg h]

/-- The insertion-sort fold permutes the accumulator and the input. -/
theorem sortByLe_aux_perm {α : Type} (le : α → α → Bool) (l : List α) :
    ∀ acc : List α, (l.foldl (fun a x => insertLe le x a) acc).Perm (acc ++ l) := by
  induction l with
  | nil => intro acc; simp
  | cons x xs ih =>
    intro acc
    rw [List.foldl_cons]
    refine ((ih (insertLe le x acc)).trans ?_)
    refine (List.Perm.append_right xs (insertLe_perm le x acc)).trans ?_
    exact List.perm_middle.symm

/-- The modelled `sorted` is a permutation of its input. -/
theorem sortByLe_perm {α : Type} (le : α → α → Bool) (l : List α) :
    (sortByLe le l).Perm l := by
  simpa using sortByLe_aux_perm le l []

/-- Stable insertion preserves sortedness for a total transitive
comparator. -/
theorem insertLe_pairwise {α : Type} (le : α → α → Bool)
    (htot : ∀ a b, (le a b || le b a) = true)
    (htrans : ∀ a b c, le a b = true → le b c = true → le a c = true)
    (x : α) (l : List α) (h : l.Pairwise (fun a b => le a b = true)) :
    (insertLe le x l).Pairwise (fun a b => le a b = true) := by
  induction l with
  | nil => simp [insertLe]
  | cons y ys ih =>
    rw [List.pairwise_cons] at h
    rw [insertLe]
    by_cases hy : le y x = true
    · rw [if_pos hy, List.pairwise_cons]
      refine ⟨?_, ih h.2⟩
      intro z hz
      have hz2 := (insertLe_perm le x ys).mem_iff.mp hz
      rcases List.mem_cons.mp hz2 with rfl | hz3
      · exact hy
      · exact h.1 z hz3
    · rw [if_neg hy, List.pairwise_cons]
      have hxy : le x y = true := by
        have h1 := htot x y
        cases hxy2 : le x y with
        | true => rfl
        | false =>
          rw [hxy2, Bool.false_or] at h1
          exact absurd h1 hy
      refine ⟨?_, List.pairwise_cons.mpr ⟨h.1, h.2⟩⟩
      intro z hz
      rcases List.mem_cons.mp hz with rfl | hz2
      · exact hxy
      · exact htrans x y z hxy (h.1 z hz2)

/-- The insertion-sort fold keeps the accumulator sorted. -/
theorem sortByLe_aux_pairwise {α : Type} (le : α → α → Bool)
    (htot : ∀ a b, (le a b || le b a) = true)
    (htrans : ∀ a b c, le a b = true → le b c = true → le a c = true)
    (l : List α) :
    ∀ acc : List α, acc.Pairwise (fun a b => le a b = true) →
      (l.foldl (fun a x => insertLe le x a) acc).Pairwise (fun a b => le a b = true) := by
  induction l with
  | nil => intro acc hacc; exact hacc
  | cons x xs ih =>
    intro acc hacc
    rw [List.foldl_cons]
    exact ih (insertLe le x acc) (insertLe_pairwise le htot htrans x acc hacc)

/-- The modelled `sorted` output is sorted. -/
theorem sortByLe_pairwise {α : Type} (le : α → α → Bool)
    (htot : ∀ a b, (le a b || le b a) = true)
    (htrans : ∀ a b c, le a b = true → le b c = true → le a c = true)
    (l : List α) :
    (sortByLe le l).Pairwise (fun a b => le a b = true) :=
  sortByLe_aux_pairwise le htot htrans l [] (List.Pairwise.nil)

/-- The `(name, ref)` comparator is total. -/
theorem imageLe_total : ∀ a b : ContainerImage, (imageLe a b || imageLe b a) = true := by
  intro a b
  simp only [imageLe, Bool.or_eq_true, decide_eq_true_eq]
  rcases lt_trichotomy a.name b.name with h | h | h
  · exact Or.inl (Or.inl h)
  · rcases le_total a.ref b.ref with hr | hr
    · exact Or.inl (Or.inr ⟨h, hr⟩)
    · exact Or.inr (Or.inr ⟨h.symm, hr⟩)
  · exact Or.inr (Or.inl h)

/-- The `(name, ref)` comparator is transitive. -/
theorem imageLe_trans :
    ∀ a b c : ContainerImage, imageLe a b = true → imageLe b c = true → imageLe a c = true := by
  intro a b c hab hbc
  simp only [imageLe, decide_eq_true_eq] at hab hbc ⊢
  rcases hab with h1 | ⟨e1, r1⟩
  · rcases hbc with h2 | ⟨e2, r2⟩
    · exact Or.inl (h1.trans h2)
    · exact Or.inl (e2 ▸ h1)
  · rcases hbc with h2 | ⟨e2, r2⟩
    · exact Or.inl (e1.symm ▸ h2)
    · exact Or.inr ⟨e1.trans e2, r1.trans r2⟩

/-- Mapping a function over the values of a dict commutes with lookup. -/
theorem lookupAssoc_map_val {α β : Type} (f : α → β) (m : List (List Char × α))
    (k : List Char) :
    lookupAssoc (m.map (fun p => (p.1, f p.2))) k = (lookupAssoc m k).map f := by
  induction m with
  | nil => rfl
  | cons p rest ih =>
    obtain ⟨k', v'⟩ := p
    cases h : k' == k <;> simp [lookupAssoc_cons, h, ih]

/-- C3: in every single-target scan, each namespace's emitted sequence
has pairwise distinct identity keys; it is sorted ascending by
`(name, ref)` with case-sensitive code-point string comparison; every
emitted image is the first image with its identity key in that
namespace's extraction stream (status-category priority order inside a
workload, workloads in input order) — so later images sharing a key are
dropped even if their refs differ; and every extracted image's key is
represented in the output. -/
theorem c3_aggregation :
    ∀ (pods : List Pod) (ns : List Char) (imgs : List ContainerImage),
      lookupAssoc (scanSingleContext pods) ns = some imgs →
      imgs.Pairwise (fun a b => ukeyOf a ≠ ukeyOf b) ∧
      imgs.Pairwise (fun a b => a.name < b.name ∨ (a.name = b.name ∧ a.ref ≤ b.ref)) ∧
      (∀ img ∈ imgs,
        (streamFor ns pods).find? (fun x => ukeyOf x == ukeyOf img) = some img) ∧
      (∀ x ∈ streamFor ns pods, ∃ img ∈ imgs, ukeyOf img = ukeyOf x) := by
  intro pods ns imgs h
  rw [scanSingleContext,
    lookupAssoc_map_val (fun b : Bucket => sortByLe imageLe (b.map (fun q => q.2)))
      (buildNsMap pods) ns,
    buildNsMap_lookup] at h
  by_cases hany : pods.any (fun p => podNamespace p == ns) = true
  · rw [if_pos hany] at h
    simp only [Option.map_some'] at h
    have himgs : imgs =
        sortByLe imageLe ((bucketAddAll [] (streamFor ns pods)).map (fun q => q.2)) :=
      (Option.some.inj h).symm
    have hperm :
        imgs.Perm ((bucketAddAll [] (streamFor ns pods)).map (fun q => q.2)) := by
      rw [himgs]
      exact sortByLe_perm imageLe _
    have hnd : (bucketAddAll [] (streamFor ns pods)).Pairwise (fun p q => p.1 ≠ q.1) :=
      bucketAddAll_nodup (streamFor ns pods) [] (List.Pairwise.nil)
    have htag : ∀ q ∈ bucketAddAll [] (streamFor ns pods), q.1 = ukeyOf q.2 :=
      bucketAddAll_keyTagged (streamFor ns pods) [] (by intro q hq; cases hq)
    have hlook : ∀ k, lookupAssoc (bucketAddAll [] (streamFor ns pods)) k =
        (streamFor ns pods).find? (fun x => ukeyOf x == k) := by
      intro k
      rw [bucketAddAll_lookup]
      rfl
    refine ⟨?_, ?_, ?_, ?_⟩
    · have hv : ((bucketAddAll [] (streamFor ns pods)).map (fun q => q.2)).Pairwise
          (fun a b => ukeyOf a ≠ ukeyOf b) := by
        rw [List.pairwise_map]
        exact List.Pairwise.imp_of_mem
          (fun ha hb hR => by rw [← htag _ ha, ← htag _ hb]; exact hR) hnd
      exact (hperm.pairwise_iff (fun hxy => hxy.symm)).mpr hv
    · have hs := sortByLe_pairwise imageLe imageLe_total imageLe_trans
        ((bucketAddAll [] (streamFor ns pods)).map (fun q => q.2))
      rw [← himgs] at hs
      exact hs.imp (fun hab => by simpa [imageLe, decide_eq_true_eq] using hab)
    · intro img hin
      have hinv : img ∈ (bucketAddAll [] (streamFor ns pods)).map (fun q => q.2) :=
        (hperm.mem_iff).mp hin
      rw [List.mem_map] at hinv
      obtain ⟨q, hq, hq2⟩ := hinv
      have hqk : q.1 = ukeyOf img := by
        rw [htag q hq, hq2]
      have hqe : q = (ukeyOf img, img) := by
        rw [← hqk, ← hq2]
      have hmem2 : (ukeyOf img, img) ∈ bucketAddAll [] (streamFor ns pods) := by
        rw [← hqe]
        exact hq
      have := lookupAssoc_of_mem_nodup _ hnd (ukeyOf img) img hmem2
      rw [hlook] at this
      exact this
    · intro x hx
      have hfind : ((streamFor ns pods).find? (fun z => ukeyOf z == ukeyOf x)).isSome = true :=
        List.find?_isSome.mpr ⟨x, hx, beq_self_eq_true _⟩
      cases hf : (streamFor ns pods).find? (fun z => ukeyOf z == ukeyOf x) with
      | none => rw [hf] at hfind; simp at hfind
      | some y =>
        have hly : lookupAssoc (bucketAddAll [] (streamFor ns pods)) (ukeyOf x) = some y := by
          rw [hlook]
          exact hf
        have hmem2 := lookupAssoc_mem _ _ _ hly
        have hyv : y ∈ (bucketAddAll [] (streamFor ns pods)).map (fun q => q.2) :=
          List.mem_map.mpr ⟨(ukeyOf x, y), hmem2, rfl⟩
        refine ⟨y, (hperm.mem_iff).mpr hyv, ?_⟩
        have := htag (ukeyOf x, y) hmem2
        exact this.symm
  · rw [if_neg hany] at h
    exact Option.noConfusion h

/-- Witness for C3: two pods whose containers share a digest under
different tags collapse to the single first-seen image, which the
stream's first-match lookup returns. -/
theorem c3_aggregation_witness :
    (streamFor "ns1".toList [tagV1Pod, tagV2Pod]).find?
        (fun x => ukeyOf x == ukeyOf tagKeptImage) = some tagKeptImage :=
  (c3_aggregation [tagV1Pod, tagV2Pod] "ns1".toList [tagKeptImage] (by decide)).2.2.1
    tagKeptImage (by decide)

end KubeImages
